import Mathlib

/-!
Verification development for `Teacherscrapper.py`, a single-file crawler that
extracts personnel-profile records from an institutional website.  The Python
source is shallowly embedded below: pure helper functions become Lean
functions over `List Char` / `String`, the parsed HTML document becomes an
explicit `Doc` structure, the crawl loop becomes a step function on an
explicit `CrawlState` driven by a fetch oracle, and Python dicts become
association lists with Python's insertion semantics.
-/

namespace Teacherscrapper

/-- Whitespace class of Python's `re` pattern `\s` restricted to ASCII
(space, tab, newline, carriage return, vertical tab, form feed). -/
def isPySpace (c : Char) : Bool :=
  c == ' ' || c == '\t' || c == '\n' || c == '\r' || c == '\x0b' || c == '\x0c'

/-- Embedding of `re.sub(r"\s+", " ", x)`: every maximal run of whitespace is
replaced by a single space.  The flag records whether the previous character
belonged to a whitespace run whose single replacement space was already
emitted. -/
def collapseAux : Bool → List Char → List Char
  | _, [] => []
  | prevWS, c :: cs =>
    if isPySpace c then
      if prevWS then collapseAux true cs else ' ' :: collapseAux true cs
    else c :: collapseAux false cs

/-- Embedding of Python `str.strip()` (ASCII whitespace): drop leading and
trailing whitespace characters. -/
def pyStrip (l : List Char) : List Char :=
  ((l.dropWhile isPySpace).reverse.dropWhile isPySpace).reverse

/-- Embedding of `normalize_text` (source lines 23-26):
`re.sub(r"\s+", " ", x).strip()`; empty input yields the empty string. -/
def normalize_text (x : String) : String :=
  String.mk (pyStrip (collapseAux false x.data))

/-- Embedding of Python `str.strip()` at the `String` level. -/
def stripStr (s : String) : String :=
  String.mk (pyStrip s.data)

/-- Embedding of Python `str.lower()` (per-character lowering; the source only
lowers ASCII labels and URLs). -/
def lowerStr (s : String) : String :=
  String.mk (s.data.map Char.toLower)

/-- Embedding of Python's substring test `pat in hay` on character lists. -/
def strHas (hay pat : List Char) : Bool :=
  match hay with
  | [] => pat.isEmpty
  | _ :: t => pat.isPrefixOf hay || strHas t pat

/-- Embedding of Python `str.rstrip(":")`: drop trailing colon characters. -/
def rstripColon (s : String) : String :=
  String.mk ((s.data.reverse.dropWhile (fun c => c == ':')).reverse)

/-- Python `dict` model: association list in insertion order. -/
abbrev LVMap := List (String × String)

/-- Lookup in the dict model (`pairs[k]` / `k in pairs`). -/
def dictGet? (m : LVMap) (k : String) : Option String :=
  (m.find? (fun p => p.1 == k)).map Prod.snd

/-- Embedding of `pairs[k] = v`: overwrite in place if the key exists
(keeping its position, as Python dicts do), otherwise append. -/
def dictInsert (m : LVMap) (k v : String) : LVMap :=
  if m.any (fun p => p.1 == k) then
    m.map (fun p => if p.1 == k then (k, v) else p)
  else m ++ [(k, v)]

/-- Embedding of `pairs.setdefault(k, v)`: insert only if the key is absent. -/
def dictSetdefault (m : LVMap) (k v : String) : LVMap :=
  if (dictGet? m k).isSome then m else m ++ [(k, v)]

/-- Parsed-document model: the element queries and text extractions that
`Teacherscrapper.py` performs on a BeautifulSoup document.  Lists are in
document order; `title` is `soup.title.string` when the title tag has a
string, `imgs` holds each `img` element's optional `src` attribute,
`textRaw` is `soup.get_text()` and `textSep` is `soup.get_text(" ")`. -/
structure Doc where
  title : Option String
  h1 : List String
  h2 : List String
  h3 : List String
  dls : List (List String × List String)
  tableRows : List (List String)
  paras : List String
  anchors : List String
  imgs : List (Option String)
  textRaw : String
  textSep : String

/-- Single `<dt>/<dd>` pair of the definition-list pass (source lines 36-40):
key is the normalized, lower-cased, trailing-colon-stripped term text; the
pair is inserted only when the key is non-empty, overwriting. -/
def dlStepPair (m : LVMap) (kv : String × String) : LVMap :=
  if rstripColon (lowerStr (normalize_text kv.1)) ≠ "" then
    dictInsert m (rstripColon (lowerStr (normalize_text kv.1))) (normalize_text kv.2)
  else m

/-- Definition-list pass over one `<dl>` (source lines 33-40): `zip` the term
texts with the description texts. -/
def dlStep (m : LVMap) (dl : List String × List String) : LVMap :=
  (List.zip dl.1 dl.2).foldl dlStepPair m

/-- Table pass over one row (source lines 45-51): rows with at least two
cells contribute first-cell/second-cell pairs, overwriting. -/
def tableStep (m : LVMap) (row : List String) : LVMap :=
  match row with
  | c0 :: c1 :: _ =>
    if rstripColon (lowerStr (normalize_text c0)) ≠ "" then
      dictInsert m (rstripColon (lowerStr (normalize_text c0))) (normalize_text c1)
    else m
  | _ => m

/-- Free-text key of `text.split(":", 1)` (source lines 57-58): the part
before the first colon, lower-cased and stripped. -/
def parasKey (text : String) : String :=
  stripStr (lowerStr (String.mk (text.data.takeWhile (fun c => c != ':'))))

/-- Free-text value of `text.split(":", 1)` (source lines 57-59): the part
after the first colon, stripped. -/
def parasVal (text : String) : String :=
  stripStr (String.mk ((text.data.dropWhile (fun c => c != ':')).tail))

/-- Free-text pass over one paragraph/list item (source lines 54-61): split
on the first colon; key lower-cased and stripped, value stripped; accepted
only if the key has fewer than 40 characters and the value is non-empty;
inserted with `setdefault` (never overwrites). -/
def parasStep (m : LVMap) (ptext : String) : LVMap :=
  if (normalize_text ptext).data.contains ':' then
    if (parasKey (normalize_text ptext)).length < 40 ∧
        0 < (parasVal (normalize_text ptext)).length then
      dictSetdefault m (parasKey (normalize_text ptext)) (parasVal (normalize_text ptext))
    else m
  else m

/-- Map accumulated by the definition-list pass (source lines 33-40). -/
def dlPairs (d : Doc) : LVMap :=
  d.dls.foldl dlStep []

/-- Map accumulated after the definition-list and table passes
(source lines 33-51). -/
def structuredPairs (d : Doc) : LVMap :=
  d.tableRows.foldl tableStep (dlPairs d)

/-- Embedding of `find_label_value_pairs` (source lines 29-63): the three
passes in order, sharing one map. -/
def find_label_value_pairs (d : Doc) : LVMap :=
  d.paras.foldl parasStep (structuredPairs d)

/-- Embedding of `dict.fromkeys(...)` de-duplication: keep the first
occurrence of each element, preserving order.  `seen` accumulates the
elements already emitted. -/
def dedupAux (seen : List String) : List String → List String
  | [] => []
  | x :: xs => if x ∈ seen then dedupAux seen xs else x :: dedupAux (x :: seen) xs

/-- First-seen order-preserving de-duplication. -/
def dedupKeepFirst (l : List String) : List String :=
  dedupAux [] l

/-- Character class `[A-Za-z0-9._%+-]` of the email pattern's local part. -/
def isLocalChar (c : Char) : Bool :=
  c.isAlpha || c.isDigit || c == '.' || c == '_' || c == '%' || c == '+' || c == '-'

/-- Character class `[A-Za-z0-9.-]` of the email pattern's domain part. -/
def isDomChar (c : Char) : Bool :=
  c.isAlpha || c.isDigit || c == '.' || c == '-'

/-- Backtracking search inside the maximal `[A-Za-z0-9.-]` run for the email
pattern's `\.[A-Za-z]{2,}` tail: Python's greedy `+` yields the largest
split, i.e. the last `'.'` that is immediately followed by at least two
letters.  Returns the consumed domain characters and the unconsumed
remainder of the run. -/
def domBack : List Char → Option (List Char × List Char)
  | [] => none
  | c :: cs =>
    match domBack cs with
    | some (d, rest) => some (c :: d, rest)
    | none =>
      if c == '.' ∧ 2 ≤ (cs.takeWhile Char.isAlpha).length then
        some ('.' :: cs.takeWhile Char.isAlpha, cs.dropWhile Char.isAlpha)
      else none

/-- Attempt to match the email pattern
`[A-Za-z0-9._%+-]+@[A-Za-z0-9.-]+\.[A-Za-z]{2,}` at the head of `l`,
returning the match and the remainder after it. -/
def emailMatchAt (l : List Char) : Option (List Char × List Char) :=
  let loc := l.takeWhile isLocalChar
  let rest := l.dropWhile isLocalChar
  if loc.isEmpty then none
  else
    match rest with
    | '@' :: r2 =>
      let dom := r2.takeWhile isDomChar
      let after := r2.dropWhile isDomChar
      match dom with
      | c0 :: crest =>
        match domBack crest with
        | some (d, leftover) => some (loc ++ '@' :: c0 :: d, leftover ++ after)
        | none => none
      | [] => none
    | _ => none

/-- Scan of `re.findall` for the email pattern: try a match at every
position, resuming after each match.  The fuel argument, initialised to the
input length, dominates the number of scan positions, so the scan always
runs to completion. -/
def emailFindAllAux : Nat → List Char → List (List Char)
  | 0, _ => []
  | _, [] => []
  | fuel + 1, c :: cs =>
    match emailMatchAt (c :: cs) with
    | some (m, rest) => m :: emailFindAllAux fuel rest
    | none => emailFindAllAux fuel cs

/-- All email-pattern matches of `l`, in order of occurrence. -/
def emailFindAll (l : List Char) : List (List Char) :=
  emailFindAllAux l.length l

/-- Embedding of `extract_emails` (source lines 66-67):
`list(set(re.findall(...)))`.  Python's set iteration order is unspecified;
it is modelled as first-seen order — every claim below depends only on
membership and emptiness of the result. -/
def extract_emails (text : String) : List String :=
  dedupKeepFirst ((emailFindAll text.data).map String.mk)

/-- Character class `[\d ()-]` of the phone pattern's interior. -/
def isPhoneChar (c : Char) : Bool :=
  c.isDigit || c == ' ' || c == '(' || c == ')' || c == '-'

/-- Drop the trailing non-digit characters of a run (the phone pattern's
final `\d` forces Python's backtracking to end the match at the last digit
of the maximal run). -/
def dropTrailingNonDigits (l : List Char) : List Char :=
  (l.reverse.dropWhile (fun c => !c.isDigit)).reverse

/-- Match the `[\d ()-]{5,}\d` part of the phone pattern after the initial
digit `d`: take the maximal run of phone characters, end it at its last
digit, and require at least 6 remaining characters.  Returns the match and
the remainder after it. -/
def phoneCore (d : Char) (l : List Char) : Option (List Char × List Char) :=
  if 6 ≤ (dropTrailingNonDigits (l.takeWhile isPhoneChar)).length then
    some (d :: dropTrailingNonDigits (l.takeWhile isPhoneChar),
      (l.takeWhile isPhoneChar).drop (dropTrailingNonDigits (l.takeWhile isPhoneChar)).length
        ++ l.dropWhile isPhoneChar)
  else none

/-- Attempt to match the phone pattern `\+?\d[\d ()-]{5,}\d` at the head of
`l` (source line 72). -/
def phoneMatchAt (l : List Char) : Option (List Char × List Char) :=
  match l with
  | [] => none
  | c :: rest =>
    if c == '+' then
      match rest with
      | [] => none
      | d :: rest2 =>
        if d.isDigit then (phoneCore d rest2).map (fun p => (c :: p.1, p.2)) else none
    else if c.isDigit then phoneCore c rest else none

/-- Scan of `re.findall` for the phone pattern, fuelled like the email scan. -/
def phoneFindAllAux : Nat → List Char → List (List Char)
  | 0, _ => []
  | _, [] => []
  | fuel + 1, c :: cs =>
    match phoneMatchAt (c :: cs) with
    | some (m, rest) => m :: phoneFindAllAux fuel rest
    | none => phoneFindAllAux fuel cs

/-- All phone-pattern matches of `l`, in order of occurrence. -/
def phoneFindAll (l : List Char) : List (List Char) :=
  phoneFindAllAux l.length l

/-- Embedding of `extract_phones` (source lines 70-75): find all matches,
whitespace-normalize each, and de-duplicate keeping first-seen order
(`list(dict.fromkeys(cleaned))`). -/
def extract_phones (text : String) : List String :=
  dedupKeepFirst ((phoneFindAll text.data).map (fun m => normalize_text (String.mk m)))

/-- Keyword list set in `TeacherScraper.__init__` (source lines 91-92). -/
def defaultKeywords : List String :=
  ["teacher", "faculty", "staff", "people", "personnel", "profile", "academic",
   "dept", "division", "fse", "fsis", "fbs", "fah", "law", "dis", "shis",
   "qsis", "cse", "eee", "cce"]

/-- Embedding of `is_potential_relevant` (source lines 112-114): any keyword
occurs in the lower-cased URL. -/
def is_potential_relevant (keywords : List String) (url : String) : Bool :=
  keywords.any (fun k => strHas (lowerStr url).data k.data)

/-- Embedding of `looks_like_profile` (source lines 116-129): true if the
URL contains a keyword; otherwise true only if the page text contains one
of the marker words and the document has an `h1` or `h2` element. -/
def looks_like_profile (keywords : List String) (url : String) (d : Doc) : Bool :=
  if keywords.any (fun k => strHas (lowerStr url).data k.data) then true
  else
    let text := (lowerStr d.textRaw).data
    if strHas text "research".data || strHas text "designation".data
        || strHas text "email".data then
      !d.h1.isEmpty || !d.h2.isEmpty
    else false

/-- Name taken from the document title (source lines 133-135): used when the
title tag is present with a truthy string. -/
def titleName (d : Doc) : String :=
  match d.title with
  | some s => if s ≠ "" then normalize_text s else ""
  | none => ""

/-- Heading preference loop of `extract_profile` (source lines 138-142): the
first heading level (h1, h2, h3, in that order) whose first element's
stripped text is longer than 2 characters supplies the name. -/
def firstGoodHeading : List (List String) → Option String
  | [] => none
  | hs :: rest =>
    match hs.head? with
    | some t => if 2 < (stripStr t).length then some (normalize_text t) else firstGoodHeading rest
    | none => firstGoodHeading rest

/-- Resolved name of `extract_profile` (source lines 132-142): the title
text, overwritten by the first acceptable heading. -/
def resolveName (d : Doc) : String :=
  match firstGoodHeading [d.h1, d.h2, d.h3] with
  | some n => n
  | none => titleName d

/-- Embedding of the `get_pair` helper (source lines 147-151): first present
key among the synonyms, else the empty fallback. -/
def get_pair (m : LVMap) : List String → String
  | [] => ""
  | k :: ks =>
    match dictGet? m k with
    | some v => v
    | none => get_pair m ks

/-- Designation lookup (source line 153). -/
def resolveDesignation (d : Doc) : String :=
  get_pair (find_label_value_pairs d) ["designation", "position", "post"]

/-- Department lookup (source line 154). -/
def resolveDepartment (d : Doc) : String :=
  get_pair (find_label_value_pairs d) ["department", "dept", "division"]

/-- Research-interests lookup (source line 155). -/
def resolveResearch (d : Doc) : String :=
  get_pair (find_label_value_pairs d)
    ["research interests", "research", "area of interest", "research area"]

/-- Office lookup (source line 156). -/
def resolveOffice (d : Doc) : String :=
  get_pair (find_label_value_pairs d) ["office", "room", "office no", "office address"]

/-- Image resolution (source lines 163-166): the first `img` element's `src`
attribute, when present and truthy, resolved against the page URL with the
external `urljoin` capability `join`. -/
def resolveImage (join : String → String → String) (url : String) (d : Doc) : Option String :=
  match d.imgs.head? with
  | some (some src) => if src ≠ "" then some (join url src) else none
  | _ => none

/-- Profile record built by `extract_profile` (source lines 172-182). -/
structure Profile where
  name : String
  designation : String
  department : String
  research_interests : String
  office : String
  emails : List String
  phones : List String
  image : Option String
  profile_url : String

/-- Embedding of `extract_profile` (source lines 131-184): resolve every
field, then return `none` when name, emails, phones and designation are all
empty (source lines 168-170), else the record. -/
def extract_profile (join : String → String → String) (url : String) (d : Doc) :
    Option Profile :=
  if resolveName d = "" ∧ extract_emails d.textSep = [] ∧ extract_phones d.textSep = []
      ∧ resolveDesignation d = "" then
    none
  else
    some { name := resolveName d
           designation := resolveDesignation d
           department := resolveDepartment d
           research_interests := resolveResearch d
           office := resolveOffice d
           emails := extract_emails d.textSep
           phones := extract_phones d.textSep
           image := resolveImage join url d
           profile_url := url }

/-- Scan for the `"://"` marker that precedes the network-location part of a
URL, returning the remainder after it. -/
def afterMarker : List Char → Option (List Char)
  | [] => none
  | ':' :: '/' :: '/' :: rest => some rest
  | _ :: rest => afterMarker rest

/-- Network-location extraction modelling `urllib.parse.urlparse(url).netloc`
for http(s)-style URLs: the text between `"://"` and the next `/`, `?` or
`#`; empty when there is no `"://"`.  Returns `none` (modelling urllib's
`ValueError: Invalid IPv6 URL`) when the location contains exactly one of
`[` and `]`. -/
def netloc? (url : String) : Option String :=
  match afterMarker url.data with
  | none => some ""
  | some rest =>
    let h := rest.takeWhile (fun c => c != '/' && c != '?' && c != '#')
    if (h.contains '[') != (h.contains ']') then none else some (String.mk h)

/-- Embedding of `is_same_domain` (source lines 94-99): the parsed host
equals the crawl domain or ends with `"." + domain`; a parse failure is
treated as not-same-domain (the `except` branch). -/
def is_same_domain (domain : String) (url : String) : Bool :=
  match netloc? url with
  | none => false
  | some h => h == domain || ("." ++ domain).data.isSuffixOf h.data

/-- Embedding of `get_links` (source lines 101-110): for each anchor href,
strip it, skip `mailto:`/`tel:`, resolve against the base URL with the
external `urljoin` capability `join`, keep same-domain results, and return
them with the fragment part (`full.split("#")[0]`) removed. -/
def get_links (domain : String) (join : String → String → String) (d : Doc)
    (base : String) : List String :=
  d.anchors.filterMap (fun href0 =>
    if "mailto:".data.isPrefixOf (stripStr href0).data
        || "tel:".data.isPrefixOf (stripStr href0).data then none
    else if is_same_domain domain (join base (stripStr href0)) then
      some (String.mk ((join base (stripStr href0)).data.takeWhile (fun c => c != '#')))
    else none)

/-- Frontier insertion discipline (source lines 225-228): a URL passing the
URL-level relevance test is prepended (`q.appendleft`), any other URL is
appended (`q.append`). -/
def enqueueOne (keywords : List String) (q : List String) (link : String) : List String :=
  if is_potential_relevant keywords link then link :: q else q ++ [link]

/-- Outcome of one call of the HTTP fetch capability: a TLS/certificate
failure (`requests.exceptions.SSLError`), any other failure, or a response
with status code, Content-Type header and parsed body. -/
inductive FetchOutcome
  | sslError
  | otherError
  | ok (status : Nat) (contentType : String) (doc : Doc)

/-- Response part of a fetch outcome (`none` for both failure kinds). -/
def resultOf : FetchOutcome → Option (Nat × String × Doc)
  | .ok s ct d => some (s, ct, d)
  | _ => none

/-- Embedding of the fetch of one URL with TLS retry (source lines 197-213).
The oracle maps the session-wide call counter, the URL and the current
verification mode to an outcome.  On an SSL error the verification mode is
set to `false` and the fetch is retried once at the new mode; a retry
failure of any kind abandons the URL.  Returns the response (if any), the
new verification mode and the new call counter. -/
def fetchWithRetry (oracle : Nat → String → Bool → FetchOutcome) (n : Nat)
    (url : String) (verify : Bool) : Option (Nat × String × Doc) × Bool × Nat :=
  match oracle n url verify with
  | .sslError =>
    match oracle (n + 1) url false with
    | .ok s ct d => (some (s, ct, d), false, n + 2)
    | _ => (none, false, n + 2)
  | .otherError => (none, verify, n + 1)
  | .ok s ct d => (some (s, ct, d), verify, n + 1)

/-- State of the crawl loop (source lines 186-238): the visited set `seen`
(always duplicate-free), the frontier `q` (front = next dequeue), the
accumulated results, the session-wide SSL-verification mode, the fetch-call
counter, and — as a history variable for the dedup invariant — the list of
URLs for which a fetch was committed, in order. -/
structure CrawlState where
  seen : List String
  q : List String
  results : List Profile
  verify : Bool
  calls : Nat
  fetched : List String

/-- Link-enqueueing loop (source lines 221-228): each link not yet visited
is enqueued unless `len(seen) + len(q) >= limit`, which breaks the loop. -/
def enqueueLinks (keywords : List String) (limit : Nat) (seen : List String) :
    List String → List String → List String
  | q, [] => q
  | q, link :: rest =>
    if link ∈ seen then enqueueLinks keywords limit seen q rest
    else if limit ≤ seen.length + q.length then q
    else enqueueLinks keywords limit seen (enqueueOne keywords q link) rest

/-- Processing of a fetch result (source lines 215-236): abandon on failure,
non-200 status or non-HTML Content-Type; otherwise enqueue the page's links
and, when the page-level test passes and the extractor yields a record,
append it to the results. -/
def processFetched (keywords : List String) (domain : String)
    (join : String → String → String) (limit : Nat) (url : String)
    (res : Option (Nat × String × Doc)) (s1 : CrawlState) : CrawlState :=
  match res with
  | none => s1
  | some (status, ct, d) =>
    if status = 200 ∧ strHas ct.data "text/html".data then
      let q' := enqueueLinks keywords limit s1.seen s1.q (get_links domain join d url)
      let results' :=
        if looks_like_profile keywords url d then
          match extract_profile join url d with
          | some p => s1.results ++ [p]
          | none => s1.results
        else s1.results
      { s1 with q := q', results := results' }
    else s1

/-- One iteration of the crawl loop body (source lines 193-236): dequeue,
skip if visited, otherwise mark visited, fetch with retry, and process. -/
def crawlStep (keywords : List String) (domain : String)
    (join : String → String → String) (oracle : Nat → String → Bool → FetchOutcome)
    (limit : Nat) (s : CrawlState) : CrawlState :=
  match s.q with
  | [] => s
  | url :: qrest =>
    if url ∈ s.seen then { s with q := qrest }
    else
      processFetched keywords domain join limit url
        (fetchWithRetry oracle s.calls url s.verify).1
        { s with q := qrest, seen := url :: s.seen,
                 verify := (fetchWithRetry oracle s.calls url s.verify).2.1,
                 calls := (fetchWithRetry oracle s.calls url s.verify).2.2,
                 fetched := s.fetched ++ [url] }

/-- Loop guard (source line 192): frontier non-empty, visited count below
the page budget, result count below the hard cap of 10000. -/
def crawlGuard (limit : Nat) (s : CrawlState) : Bool :=
  !s.q.isEmpty && decide (s.seen.length < limit) && decide (s.results.length < 10000)

/-- Fuelled iteration of the crawl loop: run `crawlStep` while the guard
holds, for at most `n` iterations. -/
def crawlRun (keywords : List String) (domain : String)
    (join : String → String → String) (oracle : Nat → String → Bool → FetchOutcome)
    (limit : Nat) : Nat → CrawlState → CrawlState
  | 0, s => s
  | n + 1, s =>
    if crawlGuard limit s then
      crawlRun keywords domain join oracle limit n (crawlStep keywords domain join oracle limit s)
    else s

/-- Termination measure of the crawl loop: each guarded iteration strictly
decreases it. -/
def crawlMeasure (limit : Nat) (s : CrawlState) : Nat :=
  (limit - s.seen.length) * (limit + 1) + s.q.length

/-- Initial crawl state (source lines 188-190): empty visited set, frontier
seeded with the start URL, verification enabled. -/
def initState (start : String) : CrawlState :=
  { seen := [], q := [start], results := [], verify := true, calls := 0, fetched := [] }

/-- Embedding of `crawl` (source lines 186-238): iterate the loop from the
seeded state until the guard fails (the measure bounds the iteration count)
and return the accumulated results. -/
def crawl (keywords : List String) (domain : String)
    (join : String → String → String) (oracle : Nat → String → Bool → FetchOutcome)
    (limit : Nat) (start : String) : List Profile :=
  (crawlRun keywords domain join oracle limit
    (crawlMeasure limit (initState start)) (initState start)).results

/-- Relation holding between adjacent characters of a whitespace-normalized
string: never two spaces in a row. -/
def Rsp (a b : Char) : Prop := ¬(a = ' ' ∧ b = ' ')

/-- Whitespace-normalized string: every whitespace character is a plain
space, no two adjacent spaces, and no leading or trailing space. -/
def wsNormalized (l : List Char) : Prop :=
  (∀ c ∈ l, isPySpace c = true → c = ' ') ∧ l.Chain' Rsp ∧
    (∀ c, l.head? = some c → c ≠ ' ') ∧ (∀ c, l.getLast? = some c → c ≠ ' ')

/-- Shape of a match of the phone pattern `\+?\d[\d ()-]{5,}\d`: after an
optional leading `+`, at least 7 characters from the class `[\d ()-]`,
starting and ending with a digit. -/
def isPhoneMatch (m : List Char) : Prop :=
  ∃ core, (m = core ∨ m = '+' :: core) ∧ 7 ≤ core.length ∧
    (∀ c ∈ core, isPhoneChar c = true) ∧
    (∀ c, core.head? = some c → c.isDigit = true) ∧
    (∀ c, core.getLast? = some c → c.isDigit = true)

/-- Two-lane decomposition of the frontier: a prefix of URLs passing the
URL-level relevance test followed by a suffix of URLs failing it. -/
def twoLane (keywords : List String) (q : List String) : Prop :=
  ∃ rels others, q = rels ++ others ∧
    (∀ x ∈ rels, is_potential_relevant keywords x = true) ∧
    (∀ x ∈ others, is_potential_relevant keywords x = false)

/-- Document with a table row `Department | CSE` and a later paragraph
`department: Other` (the harvester-precedence scenario). -/
def docDeptCSE : Doc :=
  ⟨none, [], [], [], [], [["Department", "CSE"]], ["department: Other"], [], [], "", ""⟩

/-- Document whose definition list binds `department` to `Old` and whose
table row rebinds it to `CSE` (the table pass overwrites the dl pass). -/
def docDLTable : Doc :=
  ⟨none, [], [], [], [(["Department"], ["Old"])], [["Department", "CSE"]], [], [], [], "", ""⟩

/-- Document whose only paragraph starts with a colon, so the free-text pass
inserts the empty key. -/
def docEmptyKey : Doc := ⟨none, [], [], [], [], [], [": x"], [], [], "", ""⟩

/-- Noise page: heading `Conference Schedule`, marker word `research` in the
page text, no emails, phones, labels or title. -/
def confDoc : Doc :=
  ⟨none, ["Conference Schedule"], [], [], [], [], [], [], [],
    "Our research conference", "Conference Schedule"⟩

/-- Concrete stand-in for the external `urljoin` capability, used only to
instantiate closed statements (the claims hold for every join function). -/
def joinAppend : String → String → String := fun b r => b ++ r

/-- Fetch oracle that always reports a TLS failure. -/
def sslAlwaysOracle : Nat → String → Bool → FetchOutcome := fun _ _ _ => .sslError

/-- Crawl state whose frontier head has already been visited. -/
def skipState : CrawlState := ⟨["u"], ["u", "v"], [], true, 0, []⟩

/-! ### Lemmas about the dict model and the harvester -/

theorem dictGet?_append (m l : LVMap) (k : String)
    (h : (dictGet? m k).isSome = true) : dictGet? (m ++ l) k = dictGet? m k := by
  unfold dictGet? at h ⊢
  rw [List.find?_append]
  cases hf : List.find? (fun p => p.1 == k) m with
  | none => rw [hf] at h; simp at h
  | some p => rfl

theorem dictGet?_setdefault (m : LVMap) (k' v k : String)
    (h : (dictGet? m k).isSome = true) :
    dictGet? (dictSetdefault m k' v) k = dictGet? m k := by
  unfold dictSetdefault
  split
  · rfl
  · exact dictGet?_append m [(k', v)] k h

theorem parasStep_preserves (m : LVMap) (t : String) (k : String)
    (h : (dictGet? m k).isSome = true) :
    dictGet? (parasStep m t) k = dictGet? m k := by
  unfold parasStep
  split
  · split
    · exact dictGet?_setdefault m _ _ k h
    · rfl
  · rfl

theorem foldl_parasStep_preserves (ps : List String) (m : LVMap) (k : String)
    (h : (dictGet? m k).isSome = true) :
    dictGet? (ps.foldl parasStep m) k = dictGet? m k := by
  induction ps generalizing m with
  | nil => rfl
  | cons p ps ih =>
    have hp := parasStep_preserves m p k h
    have h2 : (dictGet? (parasStep m p) k).isSome = true := by rw [hp]; exact h
    rw [List.foldl_cons, ih (parasStep m p) h2, hp]

theorem parasStep_cases (m : LVMap) (t : String) :
    parasStep m t = m ∨ ∃ k v, dictGet? m k = none ∧ k.length < 40 ∧ v ≠ "" ∧
      parasStep m t = m ++ [(k, v)] := by
  unfold parasStep
  split
  · split
    case isTrue hcolon hlen =>
      by_cases hs : (dictGet? m (parasKey (normalize_text t))).isSome = true
      · left; unfold dictSetdefault; rw [if_pos hs]
      · right
        refine ⟨parasKey (normalize_text t), parasVal (normalize_text t),
          Option.not_isSome_iff_eq_none.mp (by simpa using hs), hlen.1, ?_, ?_⟩
        · intro he
          rw [he] at hlen
          exact absurd hlen.2 (by decide)
        · unfold dictSetdefault; rw [if_neg (by simpa using hs)]
    · left; rfl
  · left; rfl

theorem mem_dictInsert (m : LVMap) (k v : String) (p : String × String)
    (hp : p ∈ dictInsert m k v) : p ∈ m ∨ p.1 = k := by
  unfold dictInsert at hp
  split at hp
  · obtain ⟨q, hq, hfq⟩ := List.mem_map.mp hp
    split at hfq
    · right; rw [← hfq]
    · left; rw [← hfq]; exact hq
  · rcases List.mem_append.mp hp with h | h
    · left; exact h
    · right; rw [List.mem_singleton.mp h]

theorem keysNE_dictInsert (m : LVMap) (k v : String)
    (hm : ∀ p ∈ m, p.1 ≠ "") (hk : k ≠ "") :
    ∀ p ∈ dictInsert m k v, p.1 ≠ "" := by
  intro p hp
  rcases mem_dictInsert m k v p hp with h | h
  · exact hm p h
  · rw [h]; exact hk

theorem keysNE_dlStepPair (m : LVMap) (kv : String × String)
    (hm : ∀ p ∈ m, p.1 ≠ "") : ∀ p ∈ dlStepPair m kv, p.1 ≠ "" := by
  unfold dlStepPair
  split
  case isTrue hk => exact keysNE_dictInsert m _ _ hm hk
  case isFalse hk => exact hm

theorem keysNE_dlStep (m : LVMap) (dl : List String × List String)
    (hm : ∀ p ∈ m, p.1 ≠ "") : ∀ p ∈ dlStep m dl, p.1 ≠ "" := by
  unfold dlStep
  generalize List.zip dl.1 dl.2 = l
  induction l generalizing m with
  | nil => exact hm
  | cons a l ih =>
    rw [List.foldl_cons]
    exact ih _ (keysNE_dlStepPair m a hm)

theorem keysNE_tableStep (m : LVMap) (row : List String)
    (hm : ∀ p ∈ m, p.1 ≠ "") : ∀ p ∈ tableStep m row, p.1 ≠ "" := by
  unfold tableStep
  split
  · split
    case isTrue hk => exact keysNE_dictInsert m _ _ hm hk
    case isFalse hk => exact hm
  · exact hm

theorem keysNE_structuredPairs (d : Doc) : ∀ p ∈ structuredPairs d, p.1 ≠ "" := by
  unfold structuredPairs
  have hdl : ∀ p ∈ dlPairs d, p.1 ≠ "" := by
    unfold dlPairs
    generalize d.dls = ls
    have : ∀ p ∈ ([] : LVMap), p.1 ≠ "" := by intro p hp; exact absurd hp (List.not_mem_nil p)
    generalize ([] : LVMap) = m at this ⊢
    induction ls generalizing m with
    | nil => exact this
    | cons a l ih =>
      rw [List.foldl_cons]
      exact ih _ (keysNE_dlStep m a this)
  generalize d.tableRows = rows
  generalize dlPairs d = m at hdl ⊢
  induction rows generalizing m with
  | nil => exact hdl
  | cons a l ih =>
    rw [List.foldl_cons]
    exact ih _ (keysNE_tableStep m a hdl)

/-- C3: the free-text pass of the label-value harvester never overwrites a
key already present after the structured passes; a free-text pair is taken
only when the text contains a colon, the lower-cased trimmed key is shorter
than 40 characters and the value is non-empty, and it is inserted
set-if-absent; the table pass does overwrite the definition-list pass; and
for a table row `Department | CSE` with a later paragraph
`department: Other` the resulting value for `department` is `CSE`. -/
theorem C3 :
    (∀ d k, (dictGet? (structuredPairs d) k).isSome = true →
       dictGet? (find_label_value_pairs d) k = dictGet? (structuredPairs d) k) ∧
    (∀ m t, parasStep m t = m ∨ ∃ k v, dictGet? m k = none ∧ k.length < 40 ∧ v ≠ "" ∧
       parasStep m t = m ++ [(k, v)]) ∧
    dictGet? (structuredPairs docDLTable) "department" = some "CSE" ∧
    dictGet? (find_label_value_pairs docDeptCSE) "department" = some "CSE" := by
  refine ⟨?_, parasStep_cases, by decide, by decide⟩
  intro d k h
  exact foldl_parasStep_preserves d.paras (structuredPairs d) k h

/-- Witness for C3 at the harvester-precedence document: `department` is
bound after the structured passes, and the full harvest leaves that binding
unchanged. -/
theorem C3_witness :
    (dictGet? (structuredPairs docDeptCSE) "department").isSome = true ∧
    dictGet? (find_label_value_pairs docDeptCSE) "department" =
      dictGet? (structuredPairs docDeptCSE) "department" :=
  ⟨by decide, C3.1 docDeptCSE "department" (by decide)⟩

/-- C10: every key present after the definition-list and table passes is
non-empty (both passes discard empty-key pairs), while the free-text pass
has no such guard and can insert the empty key. -/
theorem C10 :
    (∀ d k, (∃ v, (k, v) ∈ structuredPairs d) → k ≠ "") ∧
    ("", "x") ∈ find_label_value_pairs docEmptyKey := by
  refine ⟨?_, by decide⟩
  rintro d k ⟨v, hv⟩
  exact keysNE_structuredPairs d (k, v) hv

/-- Witness for C10: the key `department` is present after the structured
passes of the precedence document, and the theorem yields its
non-emptiness. -/
theorem C10_witness :
    (("department", "CSE") ∈ structuredPairs docDeptCSE) ∧ ("department" : String) ≠ "" :=
  ⟨by decide, C10.1 docDeptCSE "department" ⟨"CSE", by decide⟩⟩

/-! ### Profile extractor, domain test, link resolver, frontier lanes -/

/-- C4: the profile extractor emits a record exactly when at least one of
the resolved name, the extracted emails, the extracted phones and the
resolved designation is non-empty; when all four are empty it returns no
record, regardless of the remaining fields. -/
theorem C4 (join : String → String → String) (url : String) (d : Doc) :
    (extract_profile join url d).isSome = true ↔
      (resolveName d ≠ "" ∨ extract_emails d.textSep ≠ [] ∨ extract_phones d.textSep ≠ []
        ∨ resolveDesignation d ≠ "") := by
  unfold extract_profile
  by_cases h : resolveName d = "" ∧ extract_emails d.textSep = [] ∧
      extract_phones d.textSep = [] ∧ resolveDesignation d = ""
  · rw [if_pos h]
    obtain ⟨h1, h2, h3, h4⟩ := h
    simp [h1, h2, h3, h4]
  · rw [if_neg h]
    simp only [Option.isSome_some, true_iff]
    tauto

/-- C7: the domain test accepts exactly when the parsed host equals the
crawl domain or ends with `"." + domain`, treats parse failures as
not-same-domain, accepts `cs.example.edu` and rejects `notexample.edu` for
domain `example.edu`, and every URL returned by the link resolver is free
of fragment characters. -/
theorem C7 :
    (∀ domain url, netloc? url = none → is_same_domain domain url = false) ∧
    (∀ domain url h, netloc? url = some h →
       is_same_domain domain url = (h == domain || ("." ++ domain).data.isSuffixOf h.data)) ∧
    is_same_domain "example.edu" "https://cs.example.edu/x" = true ∧
    is_same_domain "example.edu" "https://notexample.edu/x" = false ∧
    (∀ domain join d base link, link ∈ get_links domain join d base → '#' ∉ link.data) := by
  refine ⟨?_, ?_, by decide, by decide, ?_⟩
  · intro domain url h
    unfold is_same_domain
    rw [h]
  · intro domain url hst h
    unfold is_same_domain
    rw [h]
  · intro domain join d base link hmem
    simp only [get_links, List.mem_filterMap] at hmem
    obtain ⟨a, _, hf⟩ := hmem
    split at hf
    · exact absurd hf (by simp)
    · split at hf
      · rw [Option.some.injEq] at hf
        subst hf
        intro hc
        have := List.mem_takeWhile_imp hc
        simp at this
      · exact absurd hf (by simp)

/-- Witness for C7 at a URL whose host urllib refuses to parse (unbalanced
IPv6 bracket): the domain test returns false. -/
theorem C7_witness : is_same_domain "example.edu" "http://[::1/x" = false :=
  C7.1 "example.edu" "http://[::1/x" (by decide)

/-- C5 counterexample: a page whose document has heading
`Conference Schedule` and no emails, phones or designation passes the
page-level relevance test, yet the extractor emits a record (the heading
becomes the name), contradicting the claim that no record is yielded. -/
theorem C5_counterexample :
    looks_like_profile defaultKeywords "https://example.edu/events" confDoc = true ∧
    extract_emails confDoc.textSep = [] ∧ extract_phones confDoc.textSep = [] ∧
    resolveDesignation confDoc = "" ∧ confDoc.h1 = ["Conference Schedule"] ∧
    (extract_profile joinAppend "https://example.edu/events" confDoc).isSome = true := by
  decide

/-- C5 amended: a page whose first `h1` heading is `Conference Schedule`
and which has no extractable email, phone or designation yields a record
whose name is `Conference Schedule` — the heading satisfies the length
bound of name resolution, so the all-empty guard never fires on such a
page. -/
theorem C5_amended (join : String → String → String) (url : String) (d : Doc)
    (hh : d.h1.head? = some "Conference Schedule")
    (he : extract_emails d.textSep = []) (hp : extract_phones d.textSep = [])
    (hd : resolveDesignation d = "") :
    ∃ p, extract_profile join url d = some p ∧ p.name = "Conference Schedule" := by
  have hname : resolveName d = "Conference Schedule" := by
    have h2 : (2 : Nat) < (stripStr "Conference Schedule").length := by decide
    have hn : normalize_text "Conference Schedule" = "Conference Schedule" := by decide
    simp [resolveName, firstGoodHeading, hh, h2, hn]
  have hcond : ¬(resolveName d = "" ∧ extract_emails d.textSep = [] ∧
      extract_phones d.textSep = [] ∧ resolveDesignation d = "") := by
    intro hc
    rw [hname] at hc
    exact absurd hc.1 (by decide)
  unfold extract_profile
  rw [if_neg hcond]
  exact ⟨_, rfl, hname⟩

/-- Witness for the amended C5 at the concrete noise page. -/
theorem C5_witness :
    ∃ p, extract_profile joinAppend "https://example.edu/events" confDoc = some p ∧
      p.name = "Conference Schedule" :=
  C5_amended joinAppend "https://example.edu/events" confDoc rfl (by decide) (by decide)
    (by decide)

/-- C2 counterexample: two URLs both passing the URL-level relevance test,
enqueued one after the other with no intervening dequeue; the
second-enqueued one ends up at the front of the frontier, so dequeue order
within the relevant lane reverses enqueue order. -/
theorem C2_counterexample :
    is_potential_relevant defaultKeywords "https://x.edu/faculty/a" = true ∧
    is_potential_relevant defaultKeywords "https://x.edu/faculty/b" = true ∧
    enqueueOne defaultKeywords (enqueueOne defaultKeywords [] "https://x.edu/faculty/a")
        "https://x.edu/faculty/b"
      = ["https://x.edu/faculty/b", "https://x.edu/faculty/a"] ∧
    ("https://x.edu/faculty/a" : String) ≠ "https://x.edu/faculty/b" := by
  decide

/-- C2 amended: the frontier keeps a two-lane shape — a prefix of relevant
URLs followed by a suffix of non-relevant ones — preserved by enqueueing
and by dequeueing; every relevant URL in the frontier is dequeued before
every non-relevant URL in it; relevant URLs are prepended (so the relevant
lane drains in reverse enqueue order, LIFO) while non-relevant URLs are
appended (FIFO within the non-relevant lane). -/
theorem C2_amended :
    (∀ kw q u, twoLane kw q → twoLane kw (enqueueOne kw q u)) ∧
    (∀ kw q, twoLane kw q → twoLane kw q.tail) ∧
    (∀ kw q, twoLane kw q → ∀ i j (hi : i < q.length) (hj : j < q.length),
       is_potential_relevant kw (q.get ⟨i, hi⟩) = true →
       is_potential_relevant kw (q.get ⟨j, hj⟩) = false → i < j) ∧
    (∀ kw q u, (is_potential_relevant kw u = true → enqueueOne kw q u = u :: q) ∧
       (is_potential_relevant kw u = false → enqueueOne kw q u = q ++ [u])) := by
  refine ⟨?_, ?_, ?_, ?_⟩
  · rintro kw q u ⟨r, o, rfl, hr, ho⟩
    unfold enqueueOne
    split
    case isTrue hu =>
      refine ⟨u :: r, o, rfl, ?_, ho⟩
      intro x hx
      rcases List.mem_cons.mp hx with h | h
      · rw [h]; exact hu
      · exact hr x h
    case isFalse hu =>
      refine ⟨r, o ++ [u], (List.append_assoc r o [u]).symm ▸ rfl, hr, ?_⟩
      intro x hx
      rcases List.mem_append.mp hx with h | h
      · exact ho x h
      · rw [List.mem_singleton.mp h]
        exact Bool.not_eq_true _ ▸ hu
  · rintro kw q ⟨r, o, rfl, hr, ho⟩
    cases r with
    | nil =>
      refine ⟨[], o.tail, by simp, by simp, ?_⟩
      intro x hx
      exact ho x (List.mem_of_mem_tail hx)
    | cons a r =>
      refine ⟨r, o, by simp, ?_, ho⟩
      intro x hx
      exact hr x (List.mem_cons_of_mem a hx)
  · rintro kw q ⟨r, o, rfl, hr, ho⟩
    intro i j hi hj hrel hnotrel
    have hir : i < r.length := by
      by_contra hge
      push_neg at hge
      have hmem : (r ++ o).get ⟨i, hi⟩ ∈ o := by
        rw [List.get_eq_getElem, List.getElem_append_right hge]
        exact List.getElem_mem _
      rw [ho _ hmem] at hrel
      exact absurd hrel (by decide)
    have hjr : r.length ≤ j := by
      by_contra hlt
      push_neg at hlt
      have hmem : (r ++ o).get ⟨j, hj⟩ ∈ r := by
        rw [List.get_eq_getElem, List.getElem_append_left hlt]
        exact List.getElem_mem _
      rw [hr _ hmem] at hnotrel
      exact absurd hnotrel (by decide)
    omega
  · intro kw q u
    constructor <;> intro h <;> simp [enqueueOne, h]

/-- Witness for the amended C2: enqueueing a relevant URL onto a frontier
holding one non-relevant URL preserves the two-lane shape. -/
theorem C2_witness :
    twoLane defaultKeywords
      (enqueueOne defaultKeywords ["https://x.edu/other"] "https://x.edu/faculty/a") :=
  C2_amended.1 defaultKeywords ["https://x.edu/other"] "https://x.edu/faculty/a"
    ⟨[], ["https://x.edu/other"], rfl, by decide, by decide⟩

/-! ### Whitespace normalization and the phone extractor -/

theorem mem_collapseAux (b : Bool) (l : List Char) (c : Char) (hc : c ∈ collapseAux b l) :
    c = ' ' ∨ (c ∈ l ∧ isPySpace c = false) := by
  induction l generalizing b with
  | nil => exact absurd hc (List.not_mem_nil c)
  | cons a t ih =>
    unfold collapseAux at hc
    split at hc
    · split at hc
      · rcases ih true hc with h | h
        · left; exact h
        · right; exact ⟨List.mem_cons_of_mem a h.1, h.2⟩
      · rcases List.mem_cons.mp hc with h | h
        · left; exact h
        · rcases ih true h with h2 | h2
          · left; exact h2
          · right; exact ⟨List.mem_cons_of_mem a h2.1, h2.2⟩
    case isFalse ha =>
      rcases List.mem_cons.mp hc with h | h
      · right
        refine ⟨h ▸ List.mem_cons_self a t, ?_⟩
        rw [h]
        simpa using ha
      · rcases ih false h with h2 | h2
        · left; exact h2
        · right; exact ⟨List.mem_cons_of_mem a h2.1, h2.2⟩

theorem head_collapseAux_true : ∀ (l : List Char) (c : Char),
    (collapseAux true l).head? = some c → isPySpace c = false := by
  intro l
  induction l with
  | nil => intro c h; simp [collapseAux] at h
  | cons a t ih =>
    intro c h
    unfold collapseAux at h
    split at h
    · exact ih c h
    case isFalse ha =>
      rw [List.head?_cons, Option.some.injEq] at h
      rw [← h]
      simpa using ha

theorem chain'_collapseAux (b : Bool) (l : List Char) : (collapseAux b l).Chain' Rsp := by
  induction l generalizing b with
  | nil => simp [collapseAux]
  | cons a t ih =>
    unfold collapseAux
    split
    · split
      · exact ih true
      · rw [List.chain'_cons']
        refine ⟨?_, ih true⟩
        intro y hy hcon
        have hns := head_collapseAux_true t y (Option.mem_def.mp hy)
        rw [hcon.2] at hns
        exact absurd hns (by decide)
    case isFalse ha =>
      rw [List.chain'_cons']
      refine ⟨?_, ih false⟩
      intro y hy hcon
      rw [hcon.1] at ha
      exact ha (by decide)

theorem head?_dropWhile (p : Char → Bool) : ∀ (l : List Char) (c : Char),
    (l.dropWhile p).head? = some c → p c = false := by
  intro l
  induction l with
  | nil => intro c h; simp [List.dropWhile] at h
  | cons a t ih =>
    intro c h
    rw [List.dropWhile_cons] at h
    split at h
    · exact ih c h
    case isFalse ha =>
      rw [List.head?_cons, Option.some.injEq] at h
      rw [← h]
      simpa using ha

theorem chain'_dropWhile (p : Char → Bool) (l : List Char) (h : l.Chain' Rsp) :
    (l.dropWhile p).Chain' Rsp := by
  obtain ⟨t, ht⟩ := List.dropWhile_suffix (l := l) p
  rw [← ht] at h
  exact (List.chain'_append.mp h).2.1

theorem chain'_reverse_Rsp (l : List Char) (h : l.Chain' Rsp) : l.reverse.Chain' Rsp := by
  rw [List.chain'_reverse]
  exact List.Chain'.imp (fun a b hab hcon => hab ⟨hcon.2, hcon.1⟩) h

theorem mem_pyStrip (l : List Char) (c : Char) (hc : c ∈ pyStrip l) : c ∈ l := by
  unfold pyStrip at hc
  rw [List.mem_reverse] at hc
  have h1 := (List.dropWhile_suffix isPySpace).sublist.subset hc
  rw [List.mem_reverse] at h1
  exact (List.dropWhile_suffix isPySpace).sublist.subset h1

theorem chain'_pyStrip (l : List Char) (h : l.Chain' Rsp) : (pyStrip l).Chain' Rsp := by
  unfold pyStrip
  exact chain'_reverse_Rsp _ (chain'_dropWhile _ _ (chain'_reverse_Rsp _ (chain'_dropWhile _ _ h)))

theorem head?_pyStrip (l : List Char) (c : Char) (h : (pyStrip l).head? = some c) :
    isPySpace c = false := by
  unfold pyStrip at h
  rw [List.head?_reverse] at h
  have hBne : List.dropWhile isPySpace (l.dropWhile isPySpace).reverse ≠ [] := by
    intro he
    rw [he] at h
    simp at h
  obtain ⟨t, ht⟩ := List.dropWhile_suffix (l := (l.dropWhile isPySpace).reverse) isPySpace
  have happ := List.getLast?_append_of_ne_nil t hBne
  rw [ht, h, List.getLast?_reverse] at happ
  exact head?_dropWhile isPySpace l c happ

theorem getLast?_pyStrip (l : List Char) (c : Char) (h : (pyStrip l).getLast? = some c) :
    isPySpace c = false := by
  unfold pyStrip at h
  rw [List.getLast?_reverse] at h
  exact head?_dropWhile isPySpace _ c h

theorem normalize_wsNormalized (x : String) : wsNormalized (normalize_text x).data := by
  refine ⟨?_, ?_, ?_, ?_⟩
  · intro c hc hsp
    rcases mem_collapseAux false x.data c (mem_pyStrip _ c hc) with h | h
    · exact h
    · rw [h.2] at hsp
      exact absurd hsp (by decide)
  · exact chain'_pyStrip _ (chain'_collapseAux false x.data)
  · intro c h he
    have hns := head?_pyStrip _ c h
    rw [he] at hns
    exact absurd hns (by decide)
  · intro c h he
    have hns := getLast?_pyStrip _ c h
    rw [he] at hns
    exact absurd hns (by decide)

theorem mem_dropTrailingNonDigits (l : List Char) (c : Char)
    (hc : c ∈ dropTrailingNonDigits l) : c ∈ l := by
  unfold dropTrailingNonDigits at hc
  rw [List.mem_reverse] at hc
  have h1 := (List.dropWhile_suffix _).sublist.subset hc
  rw [List.mem_reverse] at h1
  exact h1

theorem getLast?_dropTrailingNonDigits (l : List Char) (c : Char)
    (h : (dropTrailingNonDigits l).getLast? = some c) : c.isDigit = true := by
  unfold dropTrailingNonDigits at h
  rw [List.getLast?_reverse] at h
  have hns := head?_dropWhile (fun c => !c.isDigit) _ c h
  simpa using hns

theorem phoneCore_sound (d : Char) (l : List Char) (m r : List Char)
    (h : phoneCore d l = some (m, r)) (hd : d.isDigit = true) :
    7 ≤ m.length ∧ (∀ c ∈ m, isPhoneChar c = true) ∧
    (∀ c, m.head? = some c → c.isDigit = true) ∧
    (∀ c, m.getLast? = some c → c.isDigit = true) := by
  unfold phoneCore at h
  split at h
  case isTrue hlen =>
    rw [Option.some.injEq, Prod.mk.injEq] at h
    obtain ⟨hm, hr⟩ := h
    subst hm
    refine ⟨?_, ?_, ?_, ?_⟩
    · rw [List.length_cons]
      omega
    · intro c hc
      rcases List.mem_cons.mp hc with h2 | h2
      · rw [h2]
        unfold isPhoneChar
        rw [hd]
        rfl
      · exact List.mem_takeWhile_imp (mem_dropTrailingNonDigits _ c h2)
    · intro c hc
      rw [List.head?_cons, Option.some.injEq] at hc
      rw [← hc]
      exact hd
    · intro c hc
      have hne : dropTrailingNonDigits (l.takeWhile isPhoneChar) ≠ [] := by
        intro he
        rw [he] at hlen
        simp at hlen
      have hEq : (d :: dropTrailingNonDigits (l.takeWhile isPhoneChar)).getLast? =
          (dropTrailingNonDigits (l.takeWhile isPhoneChar)).getLast? :=
        List.getLast?_append_of_ne_nil [d] hne
      rw [hEq] at hc
      exact getLast?_dropTrailingNonDigits _ c hc
  case isFalse => exact absurd h (by simp)

theorem phoneMatchAt_sound (l m r : List Char) (h : phoneMatchAt l = some (m, r)) :
    isPhoneMatch m := by
  unfold phoneMatchAt at h
  split at h
  · exact absurd h (by simp)
  case h_2 c rest =>
    split at h
    case isTrue hplus =>
      split at h
      · exact absurd h (by simp)
      case h_2 d rest2 =>
        split at h
        case isTrue hd =>
          cases hc : phoneCore d rest2 with
          | none => rw [hc] at h; simp at h
          | some p =>
            obtain ⟨p1, p2⟩ := p
            rw [hc] at h
            simp only [Option.map_some', Option.some.injEq, Prod.mk.injEq] at h
            obtain ⟨hm, hr⟩ := h
            have hs := phoneCore_sound d rest2 p1 p2 hc hd
            refine ⟨p1, Or.inr ?_, hs.1, hs.2.1, hs.2.2.1, hs.2.2.2⟩
            rw [← hm, eq_of_beq hplus]
        case isFalse => exact absurd h (by simp)
    case isFalse hplus =>
      split at h
      case isTrue hd =>
        have hs := phoneCore_sound c rest m r h hd
        exact ⟨m, Or.inl rfl, hs.1, hs.2.1, hs.2.2.1, hs.2.2.2⟩
      case isFalse => exact absurd h (by simp)

theorem phoneFindAllAux_sound : ∀ (fuel : Nat) (l : List Char) (m : List Char),
    m ∈ phoneFindAllAux fuel l → isPhoneMatch m := by
  intro fuel
  induction fuel with
  | zero => intro l m h; simp [phoneFindAllAux] at h
  | succ fuel ih =>
    intro l m h
    cases l with
    | nil => simp [phoneFindAllAux] at h
    | cons c cs =>
      unfold phoneFindAllAux at h
      split at h
      case h_1 m2 rest2 heq =>
        rcases List.mem_cons.mp h with h2 | h2
        · exact h2 ▸ phoneMatchAt_sound (c :: cs) m2 rest2 heq
        · exact ih _ m h2
      case h_2 => exact ih cs m h

theorem dedupAux_sublist (seen l : List String) : (dedupAux seen l).Sublist l := by
  induction l generalizing seen with
  | nil => simp [dedupAux]
  | cons x xs ih =>
    unfold dedupAux
    split
    · exact (ih seen).cons x
    · exact (ih (x :: seen)).cons₂ x

theorem dedupAux_spec : ∀ (l seen : List String),
    (dedupAux seen l).Nodup ∧ ∀ x ∈ dedupAux seen l, x ∉ seen := by
  intro l
  induction l with
  | nil =>
    intro seen
    refine ⟨by simp [dedupAux], ?_⟩
    intro x hx
    simp [dedupAux] at hx
  | cons a t ih =>
    intro seen
    unfold dedupAux
    split
    case isTrue ha => exact ih seen
    case isFalse ha =>
      obtain ⟨hnd, hnm⟩ := ih (a :: seen)
      refine ⟨List.nodup_cons.mpr ⟨?_, hnd⟩, ?_⟩
      · intro hmem
        exact (hnm a hmem) (List.mem_cons_self a seen)
      · intro x hx
        rcases List.mem_cons.mp hx with h | h
        · rw [h]; exact ha
        · intro hxseen
          exact (hnm x h) (List.mem_cons_of_mem a hxseen)

theorem mem_dedupAux (l : List String) : ∀ (seen : List String) (x : String),
    x ∈ dedupAux seen l ↔ (x ∈ l ∧ x ∉ seen) := by
  induction l with
  | nil => intro seen x; simp [dedupAux]
  | cons a t ih =>
    intro seen x
    unfold dedupAux
    split
    case isTrue ha =>
      rw [ih seen x]
      constructor
      · rintro ⟨hxt, hxs⟩
        exact ⟨List.mem_cons_of_mem a hxt, hxs⟩
      · rintro ⟨hx, hxs⟩
        rcases List.mem_cons.mp hx with h | h
        · subst h
          exact absurd ha hxs
        · exact ⟨h, hxs⟩
    case isFalse ha =>
      rw [List.mem_cons, ih (a :: seen) x]
      constructor
      · rintro (h | ⟨hxt, hxs⟩)
        · subst h
          exact ⟨List.mem_cons_self x t, ha⟩
        · refine ⟨List.mem_cons_of_mem a hxt, ?_⟩
          intro hs
          exact hxs (List.mem_cons_of_mem a hs)
      · rintro ⟨hx, hxs⟩
        by_cases hxa : x = a
        · exact Or.inl hxa
        · rcases List.mem_cons.mp hx with h | h
          · exact absurd h hxa
          · refine Or.inr ⟨h, ?_⟩
            intro hs
            rcases List.mem_cons.mp hs with h2 | h2
            · exact hxa h2
            · exact hxs h2

theorem dedupAux_pairwise (l : List String) : ∀ (seen : List String),
    (dedupAux seen l).Pairwise (fun a b => l.indexOf a < l.indexOf b) := by
  induction l with
  | nil => intro seen; simp [dedupAux]
  | cons x xs ih =>
    intro seen
    unfold dedupAux
    split
    case isTrue hx =>
      refine List.Pairwise.imp_of_mem ?_ (ih seen)
      intro a b ha hb hab
      have hax : x ≠ a := by
        intro he
        refine ((mem_dedupAux xs seen a).mp ha).2 ?_
        rw [← he]
        exact hx
      have hbx : x ≠ b := by
        intro he
        refine ((mem_dedupAux xs seen b).mp hb).2 ?_
        rw [← he]
        exact hx
      rw [List.indexOf_cons_ne xs hax, List.indexOf_cons_ne xs hbx]
      omega
    case isFalse hx =>
      rw [List.pairwise_cons]
      constructor
      · intro b hb
        have hbx : x ≠ b := by
          intro he
          refine ((mem_dedupAux xs (x :: seen) b).mp hb).2 ?_
          rw [← he]
          exact List.mem_cons_self x seen
        rw [List.indexOf_cons_self, List.indexOf_cons_ne xs hbx]
        omega
      · refine List.Pairwise.imp_of_mem ?_ (ih (x :: seen))
        intro a b ha hb hab
        have hax : x ≠ a := by
          intro he
          refine ((mem_dedupAux xs (x :: seen) a).mp ha).2 ?_
          rw [← he]
          exact List.mem_cons_self x seen
        have hbx : x ≠ b := by
          intro he
          refine ((mem_dedupAux xs (x :: seen) b).mp hb).2 ?_
          rw [← he]
          exact List.mem_cons_self x seen
        rw [List.indexOf_cons_ne xs hax, List.indexOf_cons_ne xs hbx]
        omega

/-- C8: every string returned by the phone extractor is the
whitespace-normalization of a phone-pattern match (optional leading `+`,
then at least 7 characters from `[\d ()-]` starting and ending with a
digit), each returned string is itself whitespace-normalized, and the
returned list is the first-seen de-duplication of the in-order normalized
match list: it is duplicate-free, it contains exactly the elements of that
list (only duplicates are dropped), its elements appear in strictly
increasing order of their first occurrence (`indexOf`) in that list — an
order a last-occurrence de-duplication would violate — and it is a sublist
of that list. -/
theorem C8 (text : String) :
    (∀ s ∈ extract_phones text,
       (∃ m ∈ phoneFindAll text.data, isPhoneMatch m ∧ s = normalize_text (String.mk m)) ∧
       wsNormalized s.data) ∧
    (extract_phones text).Nodup ∧
    (∀ s, s ∈ extract_phones text ↔
       s ∈ (phoneFindAll text.data).map (fun m => normalize_text (String.mk m))) ∧
    (extract_phones text).Pairwise (fun a b =>
      ((phoneFindAll text.data).map (fun m => normalize_text (String.mk m))).indexOf a <
        ((phoneFindAll text.data).map (fun m => normalize_text (String.mk m))).indexOf b) ∧
    (extract_phones text).Sublist
      ((phoneFindAll text.data).map (fun m => normalize_text (String.mk m))) := by
  refine ⟨?_, (dedupAux_spec _ []).1, ?_, dedupAux_pairwise _ [], dedupAux_sublist [] _⟩
  · intro s hs
    have hmem := (dedupAux_sublist [] _).subset hs
    obtain ⟨m, hm, hsm⟩ := List.mem_map.mp hmem
    refine ⟨⟨m, hm, phoneFindAllAux_sound _ _ m hm, hsm.symm⟩, ?_⟩
    rw [← hsm]
    exact normalize_wsNormalized (String.mk m)
  · intro s
    rw [show extract_phones text =
      dedupAux [] ((phoneFindAll text.data).map (fun m => normalize_text (String.mk m)))
      from rfl]
    rw [mem_dedupAux]
    simp

/-- Witness for C8 at a concrete text containing one phone number. -/
theorem C8_witness :
    ("+880 123-4567" ∈ extract_phones "call +880 123-4567 now") ∧
    ((∃ m ∈ phoneFindAll ("call +880 123-4567 now").data, isPhoneMatch m ∧
        "+880 123-4567" = normalize_text (String.mk m)) ∧
      wsNormalized ("+880 123-4567").data) :=
  ⟨by decide, (C8 "call +880 123-4567 now").1 "+880 123-4567" (by decide)⟩

/-! ### Crawl-loop invariants, TLS latch, termination -/

theorem processFetched_preserve (kw : List String) (dom : String)
    (join : String → String → String) (limit : Nat) (url : String)
    (res : Option (Nat × String × Doc)) (s1 : CrawlState) :
    (processFetched kw dom join limit url res s1).seen = s1.seen ∧
    (processFetched kw dom join limit url res s1).fetched = s1.fetched ∧
    (processFetched kw dom join limit url res s1).verify = s1.verify := by
  unfold processFetched
  split
  · exact ⟨rfl, rfl, rfl⟩
  · split
    · exact ⟨rfl, rfl, rfl⟩
    · exact ⟨rfl, rfl, rfl⟩

theorem enqueueOne_length (kw : List String) (q : List String) (link : String) :
    (enqueueOne kw q link).length = q.length + 1 := by
  unfold enqueueOne
  split <;> simp

theorem enqueueLinks_len (kw : List String) (limit : Nat) (seen : List String) :
    ∀ (links q : List String),
      (enqueueLinks kw limit seen q links).length ≤ max q.length (limit - seen.length) := by
  intro links
  induction links with
  | nil => intro q; exact le_max_left _ _
  | cons link rest ih =>
    intro q
    unfold enqueueLinks
    split
    · exact ih q
    · split
      case isTrue => exact le_max_left _ _
      case isFalse hlt =>
        have hb := ih (enqueueOne kw q link)
        rw [enqueueOne_length] at hb
        have h1 : q.length + 1 ≤ limit - seen.length := by omega
        calc (enqueueLinks kw limit seen (enqueueOne kw q link) rest).length
            ≤ max (q.length + 1) (limit - seen.length) := hb
          _ = limit - seen.length := max_eq_right h1
          _ ≤ max q.length (limit - seen.length) := le_max_right _ _

theorem enqueueLinks_stop (kw : List String) (limit : Nat) (seen : List String) :
    ∀ (links q : List String), limit ≤ seen.length + q.length →
      enqueueLinks kw limit seen q links = q := by
  intro links
  induction links with
  | nil => intro q _; rfl
  | cons link rest ih =>
    intro q h
    unfold enqueueLinks
    split
    · exact ih q h
    · rfl

theorem processFetched_q_len (kw : List String) (dom : String)
    (join : String → String → String) (limit : Nat) (url : String)
    (res : Option (Nat × String × Doc)) (s1 : CrawlState) :
    (processFetched kw dom join limit url res s1).q.length ≤
      max s1.q.length (limit - s1.seen.length) := by
  unfold processFetched
  split
  · exact le_max_left _ _
  · split
    · exact enqueueLinks_len kw limit s1.seen _ s1.q
    · exact le_max_left _ _

theorem fetchWithRetry_ssl (oracle : Nat → String → Bool → FetchOutcome) (n : Nat)
    (url : String) (v : Bool) (h : oracle n url v = .sslError) :
    fetchWithRetry oracle n url v = (resultOf (oracle (n + 1) url false), false, n + 2) := by
  unfold fetchWithRetry
  rw [h]
  cases oracle (n + 1) url false <;> rfl

theorem fetchWithRetry_verify_false (oracle : Nat → String → Bool → FetchOutcome)
    (n : Nat) (url : String) : (fetchWithRetry oracle n url false).2.1 = false := by
  unfold fetchWithRetry
  cases oracle n url false with
  | sslError => cases oracle (n + 1) url false <;> rfl
  | otherError => rfl
  | ok s ct d => rfl

theorem crawlStep_verify_false (kw : List String) (dom : String)
    (join : String → String → String) (oracle : Nat → String → Bool → FetchOutcome)
    (limit : Nat) (s : CrawlState) (h : s.verify = false) :
    (crawlStep kw dom join oracle limit s).verify = false := by
  unfold crawlStep
  split
  · exact h
  case h_2 url qrest heq =>
    split
    · exact h
    · rw [(processFetched_preserve kw dom join limit url _ _).2.2]
      show (fetchWithRetry oracle s.calls url s.verify).2.1 = false
      rw [h]
      exact fetchWithRetry_verify_false oracle s.calls url

theorem crawlRun_verify_false (kw : List String) (dom : String)
    (join : String → String → String) (oracle : Nat → String → Bool → FetchOutcome)
    (limit : Nat) : ∀ (n : Nat) (s : CrawlState), s.verify = false →
      (crawlRun kw dom join oracle limit n s).verify = false := by
  intro n
  induction n with
  | zero => intro s h; exact h
  | succ n ih =>
    intro s h
    unfold crawlRun
    split
    · exact ih _ (crawlStep_verify_false kw dom join oracle limit s h)
    · exact h

theorem crawlStep_seen_mono (kw : List String) (dom : String)
    (join : String → String → String) (oracle : Nat → String → Bool → FetchOutcome)
    (limit : Nat) (s : CrawlState) :
    ∀ u ∈ s.seen, u ∈ (crawlStep kw dom join oracle limit s).seen := by
  unfold crawlStep
  split
  · intro u hu; exact hu
  case h_2 url qrest heq =>
    split
    · intro u hu; exact hu
    · intro u hu
      rw [(processFetched_preserve kw dom join limit url _ _).1]
      exact List.mem_cons_of_mem url hu

theorem crawlStep_inv (kw : List String) (dom : String)
    (join : String → String → String) (oracle : Nat → String → Bool → FetchOutcome)
    (limit : Nat) (s : CrawlState)
    (h1 : s.fetched.Nodup) (h2 : ∀ u ∈ s.fetched, u ∈ s.seen) :
    (crawlStep kw dom join oracle limit s).fetched.Nodup ∧
      ∀ u ∈ (crawlStep kw dom join oracle limit s).fetched,
        u ∈ (crawlStep kw dom join oracle limit s).seen := by
  unfold crawlStep
  split
  · exact ⟨h1, h2⟩
  case h_2 url qrest heq =>
    split
    · exact ⟨h1, h2⟩
    case isFalse hns =>
      rw [(processFetched_preserve kw dom join limit url _ _).1,
        (processFetched_preserve kw dom join limit url _ _).2.1]
      constructor
      · rw [List.nodup_append]
        refine ⟨h1, List.nodup_singleton url, ?_⟩
        intro a ha hb
        rw [List.mem_singleton.mp hb] at ha
        exact hns (h2 url ha)
      · intro u hu
        rcases List.mem_append.mp hu with h | h
        · exact List.mem_cons_of_mem url (h2 u h)
        · rw [List.mem_singleton.mp h]
          exact List.mem_cons_self url s.seen

theorem crawlRun_inv (kw : List String) (dom : String)
    (join : String → String → String) (oracle : Nat → String → Bool → FetchOutcome)
    (limit : Nat) : ∀ (n : Nat) (s : CrawlState),
      s.fetched.Nodup → (∀ u ∈ s.fetched, u ∈ s.seen) →
      ((crawlRun kw dom join oracle limit n s).fetched.Nodup ∧
        ∀ u ∈ (crawlRun kw dom join oracle limit n s).fetched,
          u ∈ (crawlRun kw dom join oracle limit n s).seen) := by
  intro n
  induction n with
  | zero => intro s h1 h2; exact ⟨h1, h2⟩
  | succ n ih =>
    intro s h1 h2
    unfold crawlRun
    split
    · obtain ⟨h3, h4⟩ := crawlStep_inv kw dom join oracle limit s h1 h2
      exact ih _ h3 h4
    · exact ⟨h1, h2⟩

theorem crawlRun_seen_mono (kw : List String) (dom : String)
    (join : String → String → String) (oracle : Nat → String → Bool → FetchOutcome)
    (limit : Nat) : ∀ (n : Nat) (s : CrawlState),
      ∀ u ∈ s.seen, u ∈ (crawlRun kw dom join oracle limit n s).seen := by
  intro n
  induction n with
  | zero => intro s u hu; exact hu
  | succ n ih =>
    intro s u hu
    unfold crawlRun
    split
    · exact ih _ u (crawlStep_seen_mono kw dom join oracle limit s u hu)
    · exact hu

theorem crawlStep_measure (kw : List String) (dom : String)
    (join : String → String → String) (oracle : Nat → String → Bool → FetchOutcome)
    (limit : Nat) (s : CrawlState) (hg : crawlGuard limit s = true) :
    crawlMeasure limit (crawlStep kw dom join oracle limit s) < crawlMeasure limit s := by
  unfold crawlGuard at hg
  simp only [Bool.and_eq_true, Bool.not_eq_true', decide_eq_true_eq] at hg
  obtain ⟨⟨hqne, hseen⟩, hres⟩ := hg
  obtain ⟨seen, q, results, verify, calls, fetched⟩ := s
  cases q with
  | nil => simp at hqne
  | cons url qrest =>
    show crawlMeasure limit (crawlStep kw dom join oracle limit
      ⟨seen, url :: qrest, results, verify, calls, fetched⟩) < _
    unfold crawlStep
    dsimp only at hseen ⊢
    split
    · unfold crawlMeasure
      dsimp only
      simp only [List.length_cons]
      omega
    case isFalse hns =>
      have hq := processFetched_q_len kw dom join limit url
        (fetchWithRetry oracle calls url verify).1
        ⟨url :: seen, qrest, results, (fetchWithRetry oracle calls url verify).2.1,
          (fetchWithRetry oracle calls url verify).2.2, fetched ++ [url]⟩
      have hs := (processFetched_preserve kw dom join limit url
        (fetchWithRetry oracle calls url verify).1
        ⟨url :: seen, qrest, results, (fetchWithRetry oracle calls url verify).2.1,
          (fetchWithRetry oracle calls url verify).2.2, fetched ++ [url]⟩).1
      unfold crawlMeasure
      rw [hs]
      dsimp only at hq ⊢
      simp only [List.length_cons] at hq ⊢
      have h1 : limit - seen.length = (limit - (seen.length + 1)) + 1 := by omega
      rw [h1, Nat.succ_mul]
      omega


theorem crawlRun_term (kw : List String) (dom : String)
    (join : String → String → String) (oracle : Nat → String → Bool → FetchOutcome)
    (limit : Nat) : ∀ (n : Nat) (s : CrawlState), crawlMeasure limit s ≤ n →
      crawlGuard limit (crawlRun kw dom join oracle limit n s) = false := by
  intro n
  induction n with
  | zero =>
    intro s h
    have hsum := Nat.le_zero.mp h
    have hq : s.q.length = 0 := (Nat.add_eq_zero.mp hsum).2
    have hqe : s.q = [] := List.length_eq_zero.mp hq
    unfold crawlRun crawlGuard
    rw [hqe]
    rfl
  | succ n ih =>
    intro s h
    unfold crawlRun
    split
    case isTrue hg =>
      apply ih
      have := crawlStep_measure kw dom join oracle limit s hg
      omega
    case isFalse hg => simpa using hg

theorem crawlRun_seen_le (kw : List String) (dom : String)
    (join : String → String → String) (oracle : Nat → String → Bool → FetchOutcome)
    (limit : Nat) : ∀ (n : Nat) (s : CrawlState), s.seen.length ≤ limit →
      (crawlRun kw dom join oracle limit n s).seen.length ≤ limit := by
  intro n
  induction n with
  | zero => intro s h; exact h
  | succ n ih =>
    intro s h
    unfold crawlRun
    split
    case isTrue hg =>
      apply ih
      unfold crawlGuard at hg
      simp only [Bool.and_eq_true, Bool.not_eq_true', decide_eq_true_eq] at hg
      obtain ⟨⟨hqne, hseen⟩, hres⟩ := hg
      unfold crawlStep
      split
      · exact h
      · rename_i url qrest heq
        split
        · exact h
        · rw [(processFetched_preserve kw dom join limit url _ _).1]
          simp only [List.length_cons]
          omega
    case isFalse hg => exact h

/-- C1: during a crawl no URL is fetched more than once — the committed
fetch list of any run from the initial state is duplicate-free; every
fetched URL is in the visited set; the visited set only grows along the
run; a dequeued URL already in the visited set is skipped without fetching;
and a dequeued unvisited URL is added to the visited set in the same step
that commits its fetch. -/
theorem C1 :
    (∀ (kw : List String) (dom : String) (join : String → String → String)
       (oracle : Nat → String → Bool → FetchOutcome) (limit : Nat) (start : String)
       (n : Nat),
       (crawlRun kw dom join oracle limit n (initState start)).fetched.Nodup ∧
       ∀ u ∈ (crawlRun kw dom join oracle limit n (initState start)).fetched,
         u ∈ (crawlRun kw dom join oracle limit n (initState start)).seen) ∧
    (∀ (kw : List String) (dom : String) (join : String → String → String)
       (oracle : Nat → String → Bool → FetchOutcome) (limit : Nat) (n : Nat)
       (s : CrawlState), ∀ u ∈ s.seen, u ∈ (crawlRun kw dom join oracle limit n s).seen) ∧
    (∀ (kw : List String) (dom : String) (join : String → String → String)
       (oracle : Nat → String → Bool → FetchOutcome) (limit : Nat) (s : CrawlState)
       (url : String) (qrest : List String), s.q = url :: qrest → url ∈ s.seen →
       crawlStep kw dom join oracle limit s = { s with q := qrest }) ∧
    (∀ (kw : List String) (dom : String) (join : String → String → String)
       (oracle : Nat → String → Bool → FetchOutcome) (limit : Nat) (s : CrawlState)
       (url : String) (qrest : List String), s.q = url :: qrest → url ∉ s.seen →
       (crawlStep kw dom join oracle limit s).fetched = s.fetched ++ [url] ∧
       (crawlStep kw dom join oracle limit s).seen = url :: s.seen) := by
  refine ⟨?_, ?_, ?_, ?_⟩
  · intro kw dom join oracle limit start n
    exact crawlRun_inv kw dom join oracle limit n (initState start) (by simp [initState])
      (by intro u hu; simp [initState] at hu)
  · intro kw dom join oracle limit n s
    exact crawlRun_seen_mono kw dom join oracle limit n s
  · intro kw dom join oracle limit s url qrest hq hmem
    unfold crawlStep
    rw [hq]
    dsimp only
    rw [if_pos hmem]
  · intro kw dom join oracle limit s url qrest hq hmem
    unfold crawlStep
    rw [hq]
    dsimp only
    rw [if_neg hmem]
    exact ⟨(processFetched_preserve kw dom join limit url _ _).2.1,
      (processFetched_preserve kw dom join limit url _ _).1⟩

/-- Witness for C1: a crawl step whose frontier head is already visited
only pops the frontier. -/
theorem C1_witness :
    crawlStep defaultKeywords "ex.edu" joinAppend sslAlwaysOracle 5 skipState =
      { skipState with q := ["v"] } :=
  C1.2.2.1 defaultKeywords "ex.edu" joinAppend sslAlwaysOracle 5 skipState "u" ["v"] rfl
    (by decide)

/-- C6: on a TLS/certificate failure the session verification mode is set
to false and the same fetch is retried exactly once at the downgraded mode
(the call counter advances by two); the retry result — success or any
failure — is processed exactly as a normal fetch result while the mode
stays downgraded; and once the mode is false it remains false for the rest
of the run (one-way latch). -/
theorem C6 :
    (∀ (oracle : Nat → String → Bool → FetchOutcome) (n : Nat) (url : String) (v : Bool),
       oracle n url v = .sslError →
       fetchWithRetry oracle n url v = (resultOf (oracle (n + 1) url false), false, n + 2)) ∧
    (∀ (kw : List String) (dom : String) (join : String → String → String)
       (oracle : Nat → String → Bool → FetchOutcome) (limit : Nat) (n : Nat)
       (s : CrawlState), s.verify = false →
       (crawlRun kw dom join oracle limit n s).verify = false) ∧
    (∀ (kw : List String) (dom : String) (join : String → String → String)
       (oracle : Nat → String → Bool → FetchOutcome) (limit : Nat) (s : CrawlState)
       (url : String) (qrest : List String), s.q = url :: qrest → url ∉ s.seen →
       oracle s.calls url s.verify = .sslError →
       crawlStep kw dom join oracle limit s =
         processFetched kw dom join limit url (resultOf (oracle (s.calls + 1) url false))
           { s with q := qrest, seen := url :: s.seen, verify := false,
                    calls := s.calls + 2, fetched := s.fetched ++ [url] }) := by
  refine ⟨fetchWithRetry_ssl, ?_, ?_⟩
  · intro kw dom join oracle limit n s h
    exact crawlRun_verify_false kw dom join oracle limit n s h
  · intro kw dom join oracle limit s url qrest hq hmem hssl
    unfold crawlStep
    rw [hq]
    dsimp only
    rw [if_neg hmem]
    rw [fetchWithRetry_ssl oracle s.calls url s.verify hssl]

/-- Witness for C6: with an oracle that always reports a TLS failure, the
fetch helper downgrades the mode, retries once and reports no response. -/
theorem C6_witness :
    fetchWithRetry sslAlwaysOracle 0 "https://ex.edu/" true =
      (resultOf (sslAlwaysOracle 1 "https://ex.edu/" false), false, 0 + 2) :=
  C6.1 sslAlwaysOracle 0 "https://ex.edu/" true rfl

/-- C9: the crawl loop always terminates — running it for `crawlMeasure`
iterations reaches a state where the loop guard fails, for every fetch
behaviour and budget; the visited set never exceeds the page budget; link
enqueueing is a no-op once visited-count plus queue length has reached the
budget; and the queue length stays bounded by the larger of its current
value and the remaining budget. -/
theorem C9 :
    (∀ (kw : List String) (dom : String) (join : String → String → String)
       (oracle : Nat → String → Bool → FetchOutcome) (limit : Nat) (s : CrawlState),
       crawlGuard limit (crawlRun kw dom join oracle limit (crawlMeasure limit s) s)
         = false) ∧
    (∀ (kw : List String) (dom : String) (join : String → String → String)
       (oracle : Nat → String → Bool → FetchOutcome) (limit : Nat) (n : Nat)
       (s : CrawlState), s.seen.length ≤ limit →
       (crawlRun kw dom join oracle limit n s).seen.length ≤ limit) ∧
    (∀ (kw : List String) (limit : Nat) (seen q links : List String),
       limit ≤ seen.length + q.length → enqueueLinks kw limit seen q links = q) ∧
    (∀ (kw : List String) (limit : Nat) (seen q links : List String),
       (enqueueLinks kw limit seen q links).length ≤ max q.length (limit - seen.length)) := by
  refine ⟨?_, ?_, ?_, ?_⟩
  · intro kw dom join oracle limit s
    exact crawlRun_term kw dom join oracle limit (crawlMeasure limit s) s le_rfl
  · intro kw dom join oracle limit n s h
    exact crawlRun_seen_le kw dom join oracle limit n s h
  · intro kw limit seen q links h
    exact enqueueLinks_stop kw limit seen links q h
  · intro kw limit seen q links
    exact enqueueLinks_len kw limit seen links q

/-- Witness for C9: with page budget 1 already exhausted by one visited URL
and one queued URL, enqueueing a new link is a no-op. -/
theorem C9_witness : enqueueLinks [] 1 ["a"] ["b"] ["c"] = ["b"] :=
  C9.2.2.1 [] 1 ["a"] ["b"] ["c"] (by decide)

end Teacherscrapper
